import Mathlib

/-!
Shallow embedding of the `grokking_algos` repository (Rust) and proofs of
the spec's testable properties against it.

Modules embedded:
* `src/intro_to_algos/mod.rs` : `linear_search`, `iterative_binary_search`,
  `recursive_binary_search`
* `src/selection_sort/mod.rs` : `selection_sort`
* `src/quicksort/mod.rs`      : `sum`, `count`, `_find_max`, `find_max`,
  `quick_sort`
* `src/recursion/mod.rs`      : `factorial`

Conventions of the embedding:
* Rust slices `&[T]` with `T : Ord` become `List Int` (the element type is
  generic in the source; `Int` is a faithful instance of a totally ordered,
  copyable element type, and every claim is about order-generic behaviour).
* `usize` indices become `Nat`.  Where the source performs `usize`
  subtraction that can underflow (`mid - 1` with `mid = 0`), the embedding
  returns an explicit `Panic` value: in a debug build the subtraction
  panics with an overflow error, and in a release build it wraps to
  `2^64 - 1` after which `list[mid]` is an out-of-bounds panic — either
  way the call faults instead of returning.
* Rust `Option<usize>` results become `Option Nat`; a function whose Rust
  execution can panic returns `Except Panic _`; a function whose Rust
  execution can diverge (infinite recursion) takes fuel and returns
  `Option _`, `none` meaning the fuel ran out.
* Slice indexing `list[i]` becomes `List.getD list i 0`; at every indexing
  site of the embedded code the index is in bounds in all reachable,
  non-panicking states, so the default is never read.
-/

namespace GrokkingAlgos

/-- The fault outcome of a Rust `usize` subtraction underflow
(`mid - 1` evaluated at `mid = 0`): an overflow panic in debug builds,
wraparound followed by an out-of-bounds indexing panic in release builds. -/
inductive Panic where
  | underflow : Panic
deriving DecidableEq, Repr

/-- Outcome of running one of the embedded search functions: a normal
Rust return value (`ok (some i)` for `Some(i)`, `ok none` for `None`),
or a panic. -/
inductive SearchOutcome where
  | ok : Option Nat → SearchOutcome
  | panic : Panic → SearchOutcome
deriving DecidableEq, Repr

/-! ## `src/intro_to_algos/mod.rs` -/

/-- Accumulator loop of `linear_search`: Rust's
`for (i, val) in list.iter().enumerate()` scan, carrying the running index. -/
def linearSearchLoop : List Int → Int → Nat → Option Nat
  | [], _, _ => none
  | x :: xs, item, i => if x = item then some i else linearSearchLoop xs item (i + 1)

/-- `linear_search` (src/intro_to_algos/mod.rs:157-166): scan the list from
the front, returning the first index whose element equals `item`, else `None`. -/
def linear_search (list : List Int) (item : Int) : Option Nat :=
  linearSearchLoop list item 0

/-- The `while low < high` loop of `iterative_binary_search`
(src/intro_to_algos/mod.rs:191-211).  `mid = (low + high) / 2`; on
`item == list[mid]` return `Some mid`; on `item < list[mid]` the source
executes `high = mid - 1`, which underflows `usize` when `mid = 0`
(modelled as `Panic.underflow`); otherwise `low = mid + 1`. -/
def ibsLoop (list : List Int) (item : Int) (low high : Nat) : SearchOutcome :=
  if _h : low < high then
    let mid := (low + high) / 2
    if item = list.getD mid 0 then
      .ok (some mid)
    else if item < list.getD mid 0 then
      if mid = 0 then .panic Panic.underflow
      else ibsLoop list item low (mid - 1)
    else
      ibsLoop list item (mid + 1) high
  else
    .ok none
termination_by high - low
decreasing_by
  · have hmidlt : (low + high) / 2 < high := by omega
    omega
  · have hmidge : low ≤ (low + high) / 2 := by omega
    omega

/-- `iterative_binary_search` (src/intro_to_algos/mod.rs:185-214):
`low` starts at `0`, `high` starts at `list.len()`, then the loop runs. -/
def iterative_binary_search (list : List Int) (item : Int) : SearchOutcome :=
  ibsLoop list item 0 list.length

/-- `recursive_binary_search` (src/intro_to_algos/mod.rs:233-254), with
fuel because the source recursion does not terminate on all inputs
(e.g. `list = [0, 2]`, `item = 1`, reaches `low = 1, high = 0` and then
calls itself with the same arguments forever).  `none` = fuel exhausted
(the source diverges or needs more fuel); `some r` = the source returns
outcome `r` (a normal result or a panic). -/
def recursive_binary_search (fuel : Nat) (list : List Int) (item : Int)
    (low high : Nat) : Option SearchOutcome :=
  match fuel with
  | 0 => none
  | fuel + 1 =>
    let mid := (low + high) / 2
    if list.isEmpty ∨ mid ≥ list.length then
      some (.ok none)
    else if item = list.getD mid 0 then
      some (.ok (some mid))
    else if item < list.getD mid 0 then
      if mid = 0 then some (.panic Panic.underflow)
      else recursive_binary_search fuel list item low (mid - 1)
    else
      recursive_binary_search fuel list item (mid + 1) high

/-! ## `src/selection_sort/mod.rs` -/

/-- Inner `while j < len` loop of `selection_sort`
(src/selection_sort/mod.rs:245-254): scan forward from `j`, keeping the
index `current_min` of the least element seen so far (strict `<`, so the
first occurrence of the minimum wins).  `len` is the length captured once
at the top of the function. -/
def minFromLoop (len : Nat) (list : List Int) (j current_min : Nat) : Nat :=
  if _h : j < len then
    minFromLoop len list (j + 1)
      (if list.getD j 0 < list.getD current_min 0 then j else current_min)
  else
    current_min
termination_by len - j
decreasing_by omega

/-- Rust's `list.swap(i, j)` on the slice, as the two `set`s it amounts to:
the new list holds the old `list[j]` at `i` and the old `list[i]` at `j`. -/
def swapList (list : List Int) (i j : Nat) : List Int :=
  (list.set i (list.getD j 0)).set j (list.getD i 0)

/-- One iteration of the outer loop of `selection_sort`
(src/selection_sort/mod.rs:238-260) at index `i`: find the index of the
minimum of `list[i..len]` (starting the scan at `j = i + 1` with
`current_min = i`) and swap it with position `i`. -/
def selSortStep (len : Nat) (list : List Int) (i : Nat) : List Int :=
  swapList list i (minFromLoop len list (i + 1) i)

/-- Outer `while i < len` loop of `selection_sort`; `len` is captured once
before the loop (`let (mut i, len) = (0, list.len())`). -/
def selSortLoop (len : Nat) (list : List Int) (i : Nat) : List Int :=
  if i < len then
    selSortLoop len (selSortStep len list i) (i + 1)
  else
    list
termination_by len - i
decreasing_by omega

/-- `selection_sort` (src/selection_sort/mod.rs:233-262). -/
def selection_sort (list : List Int) : List Int :=
  selSortLoop list.length list 0

/-- The state of the slice after `k` iterations of `selection_sort`'s outer
loop, starting from `list` (with `len` the captured length); used to state
the spec's loop invariant. -/
def selSteps (len : Nat) (list : List Int) : Nat → List Int
  | 0 => list
  | k + 1 => selSortStep len (selSteps len list k) k

/-! ## `src/quicksort/mod.rs` -/

/-- `_find_max` (src/quicksort/mod.rs:265-274): empty list gives `None`;
otherwise the max of `list[0]` and the recursive result on the tail
(`unwrap_or(&list[0])` when the tail is empty).  The `index` argument is
threaded through as `index.checked_sub(1).unwrap_or(list.len() - 1)`
(`checked_sub 1` is `none` exactly when `index = 0`) but never otherwise
used. -/
def findMaxRust : List Int → Nat → Option Int
  | [], _ => none
  | x :: xs, index =>
    some (max x
      ((findMaxRust xs
          (if index = 0 then (x :: xs).length - 1 else index - 1)).getD x))

/-- `find_max` (src/quicksort/mod.rs:298-301): wrapper instantiating
`index` to `list.len().checked_sub(1).unwrap_or(0)`, which is `len - 1`
truncated at zero, i.e. `Nat` subtraction `list.length - 1`. -/
def find_max (list : List Int) : Option Int :=
  findMaxRust list (list.length - 1)

/-- `quick_sort` (src/quicksort/mod.rs:320-350): the first element of the
list is the pivot; the remaining elements are partitioned by `n < pivot`
into the strictly-smaller group and the not-smaller group (so duplicates
of the pivot land in the second group), each group is sorted recursively,
and the results are concatenated around the pivot. -/
def quick_sort : List Int → List Int
  | [] => []
  | pivot :: rest =>
    let part := rest.partition (fun n => n < pivot)
    quick_sort part.1 ++ pivot :: quick_sort part.2
termination_by l => l.length
decreasing_by
  · simp only [List.partition_eq_filter_filter]
    have := rest.length_filter_le (fun n => decide (n < pivot))
    simp only [List.length_cons]
    omega
  · simp only [List.partition_eq_filter_filter]
    have := rest.length_filter_le (not ∘ fun n => decide (n < pivot))
    simp only [List.length_cons]
    omega

/-! ## `src/recursion/mod.rs` -/

/-- `factorial` (src/recursion/mod.rs:244-249): `0 => 1`,
`i => factorial(i - 1) * i`.  The Rust parameter type is `u64` — an
unsigned integer, embedded as `Nat`; there is no representation of a
negative input and the return type is a plain `u64`, with no error
alternative.  This definition gives the mathematical value, ignoring
overflow (see `factorialChecked`). -/
def factorial : Nat → Nat
  | 0 => 1
  | i + 1 => factorial i * (i + 1)

/-- `factorial` with `u64` debug-build semantics: the multiplication
`factorial(i - 1) * i` panics when the product does not fit in 64 bits
(`none` = overflow panic).  The source's own tests go up to
`factorial(20)`, the largest input that fits. -/
def factorialChecked : Nat → Option Nat
  | 0 => some 1
  | i + 1 =>
    match factorialChecked i with
    | none => none
    | some f => if f * (i + 1) < 2 ^ 64 then some (f * (i + 1)) else none

/-!
## Theorems

First the claims settled by concrete evaluation of the embedded code,
then the general lemmas and theorems about `find_max`, `quick_sort` and
`selection_sort`.
-/

unseal ibsLoop in
/-- C1.  The claim fails on the code: on the ascending list `[0, 1]` with
target `0` — present at index 0 — `iterative_binary_search` returns the
not-found result `None`, while `recursive_binary_search` (called with
`low = 0`, `high = length`) returns `Some 0`; so the iterative variant
does not return an index holding the target, and the two variants
disagree on a shared input.  (The loop reaches `low = 0`, `high = 2`,
`mid = 1`, and `0 < list[1]` executes `high = mid - 1 = 0`, discarding
index 0 from the half-open search range.) -/
theorem binary_search_misses_present_target :
    ([0, 1] : List Int).Sorted (· ≤ ·) ∧ (0 : Int) ∈ ([0, 1] : List Int) ∧
    ([0, 1] : List Int).getD 0 0 = 0 ∧
    iterative_binary_search [0, 1] 0 = .ok none ∧
    recursive_binary_search 5 [0, 1] 0 0 ([0, 1] : List Int).length =
      some (.ok (some 0)) := by
  refine ⟨?_, ?_, ?_, ?_, ?_⟩ <;> decide

unseal ibsLoop in
/-- C2.  The claim fails on the code: the source executes
`high = mid - 1`, not `high = mid`, in the `item < list[mid]` branch
(src/intro_to_algos/mod.rs:207), so when `mid = 0` the `usize`
subtraction underflows and the function faults instead of returning
not-found.  Concretely, on the sorted one-element list `[1]` with target
`0` the first iteration has `low = 0`, `high = 1`, `mid = 0`, and
`0 < list[0]` triggers the underflow. -/
theorem iterative_binary_search_underflows_at_mid_zero :
    ([1] : List Int).Sorted (· ≤ ·) ∧
    iterative_binary_search [1] 0 = .panic Panic.underflow := by
  exact ⟨by decide, by decide⟩

unseal ibsLoop in
/-- C3.  The claim fails on the code for the iterative binary search: on
the sorted list `[1, 2, 3, 4]` with the absent target `0`,
`linear_search` duly returns `None`, but `iterative_binary_search`
narrows to `low = 0`, `high = 1`, `mid = 0` and then faults on the
`usize` underflow of `mid - 1` instead of returning the not-found
marker. -/
theorem iterative_binary_search_panics_on_absent_target :
    (0 : Int) ∉ ([1, 2, 3, 4] : List Int) ∧
    ([1, 2, 3, 4] : List Int).Sorted (· ≤ ·) ∧
    linear_search [1, 2, 3, 4] 0 = none ∧
    iterative_binary_search [1, 2, 3, 4] 0 = .panic Panic.underflow := by
  refine ⟨?_, ?_, ?_, ?_⟩ <;> decide

unseal minFromLoop selSortLoop in
/-- C6 (counterexample).  The spec's claimed output `[0,1,1,2,3,3,4,5]`
is not what the code produces on `[5,3,0,2,1,3,4,5]` — it is not even a
permutation of that input (the input has one `1` and two `5`s; the
claimed output has two `1`s and one `5`). -/
theorem selection_sort_spec_example_output_wrong :
    selection_sort [5, 3, 0, 2, 1, 3, 4, 5] ≠ [0, 1, 1, 2, 3, 3, 4, 5] := by
  decide

unseal minFromLoop selSortLoop in
/-- C6 (amended).  Applying `selection_sort` to `[5,3,0,2,1,3,4,5]`
produces exactly `[0,1,2,3,3,4,5,5]` — the ascending reordering of the
input, as the source's own unit test
`selection_sort_handles_repeating_values` also records. -/
theorem selection_sort_spec_example_corrected :
    selection_sort [5, 3, 0, 2, 1, 3, 4, 5] = [0, 1, 2, 3, 3, 4, 5, 5] := by
  decide

/-- C7 (counterexample).  `factorial`'s Rust signature is
`fn factorial(i: u64) -> u64`: the parameter is unsigned, so no negative
input exists to reject, and the return type offers no error alternative —
the function signals no recoverable domain error on any input.  Its only
fault behaviour is a panic: at the concrete input `21` the `u64`
multiplication overflows (`none` below), rather than any error being
propagated to the caller; at `20` it returns the plain number
`2432902008176640000`. -/
theorem factorial_signals_no_domain_error :
    factorialChecked 21 = none ∧
    factorialChecked 20 = some (factorial 20) ∧
    factorial 20 = 2432902008176640000 := by
  refine ⟨?_, ?_, ?_⟩ <;> decide

/-- C7 (amended).  `factorial` accepts only unsigned input (`u64`,
embedded as `Nat`), so negative inputs are excluded by the type rather
than rejected at run time; it returns a plain number and propagates no
recoverable error.  On every input up to `20` (the largest its own tests
exercise) the debug-semantics run returns the mathematical factorial;
at `21` it panics on `u64` overflow instead of signalling an error. -/
theorem factorial_unsigned_no_error_path :
    (∀ i : Nat, i ≤ 20 → factorialChecked i = some (factorial i)) ∧
    factorialChecked 21 = none := by
  exact ⟨by decide, by decide⟩

/-- Witness for `factorial_unsigned_no_error_path` at `i = 20`. -/
theorem factorial_unsigned_no_error_path_witness :
    factorialChecked 20 = some (factorial 20) :=
  factorial_unsigned_no_error_path.1 20 (by decide)

/-! ### `find_max` -/

/-- The `index` argument of `_find_max` never influences the result: it is
only rethreaded into the recursive call and never read. -/
lemma findMaxRust_index_eq (l : List Int) :
    ∀ i j : Nat, findMaxRust l i = findMaxRust l j := by
  induction l with
  | nil => intro i j; rfl
  | cons x xs ih =>
    intro i j
    simp only [findMaxRust]
    rw [ih (if i = 0 then (x :: xs).length - 1 else i - 1)
        (if j = 0 then (x :: xs).length - 1 else j - 1)]

/-- `max` distributes over a running `foldl max`. -/
lemma max_foldl_max (ys : List Int) :
    ∀ a b : Int, max a (ys.foldl max b) = ys.foldl max (max a b) := by
  induction ys with
  | nil => intro a b; rfl
  | cons y ys ih =>
    intro a b
    simp only [List.foldl_cons]
    rw [ih, max_assoc]

/-- On a non-empty list, `_find_max` computes the running maximum,
whatever the index argument. -/
lemma findMaxRust_cons_eq_foldl (x : Int) (xs : List Int) :
    ∀ i : Nat, findMaxRust (x :: xs) i = some (xs.foldl max x) := by
  induction xs generalizing x with
  | nil => intro i; simp [findMaxRust]
  | cons y ys ih =>
    intro i
    simp only [findMaxRust] at ih ⊢
    rw [ih]
    simp only [Option.getD_some, List.foldl_cons]
    rw [max_foldl_max]

/-- C10.  The result of `_find_max` does not depend on its `index`
argument: for every list and any two index values the results are equal,
and both equal `find_max` of the list. -/
theorem find_max_index_argument_irrelevant :
    ∀ (l : List Int) (i1 i2 : Nat),
      findMaxRust l i1 = findMaxRust l i2 ∧ findMaxRust l i1 = find_max l := by
  intro l i1 i2
  exact ⟨findMaxRust_index_eq l i1 i2, findMaxRust_index_eq l i1 (l.length - 1)⟩

/-- C8.  `find_max` returns `none` on the empty list; on a non-empty list
it returns the max of the first element and the maximum of the tail (the
tail's "no value" losing to the head via `unwrap_or`), and this equals the
standard maximum of the list. -/
theorem find_max_correct :
    find_max ([] : List Int) = none ∧
    (∀ (x : Int) (xs : List Int),
      find_max (x :: xs) = some (max x ((find_max xs).getD x))) ∧
    (∀ (x : Int) (xs : List Int), find_max (x :: xs) = (x :: xs).max?) := by
  refine ⟨rfl, ?_, ?_⟩
  · intro x xs
    show findMaxRust (x :: xs) _ = _
    simp only [findMaxRust]
    rw [findMaxRust_index_eq xs _ (xs.length - 1)]
    rfl
  · intro x xs
    rw [show find_max (x :: xs) = findMaxRust (x :: xs) ((x :: xs).length - 1)
          from rfl,
      findMaxRust_cons_eq_foldl]
    rfl

/-! ### `quick_sort` -/

/-- `quick_sort` returns a permutation of its input. -/
lemma quick_sort_perm (l : List Int) : (quick_sort l).Perm l := by
  induction l using quick_sort.induct with
  | case1 => rw [quick_sort]
  | case2 pivot rest part ih1 ih2 =>
    rw [quick_sort]
    refine (ih1.append (ih2.cons pivot)).trans ?_
    refine List.perm_middle.trans ?_
    refine List.Perm.cons pivot ?_
    have hpart : part = (rest.filter (fun n => decide (n < pivot)),
        rest.filter (not ∘ fun n => decide (n < pivot))) :=
      List.partition_eq_filter_filter _ rest
    rw [hpart]
    exact List.filter_append_perm _ rest

/-- Every element of `quick_sort l` is an element of `l`. -/
lemma mem_of_mem_quick_sort {a : Int} {l : List Int}
    (h : a ∈ quick_sort l) : a ∈ l :=
  (quick_sort_perm l).subset h

/-- `quick_sort` returns an ascending list. -/
lemma quick_sort_sorted (l : List Int) : (quick_sort l).Sorted (· ≤ ·) := by
  induction l using quick_sort.induct with
  | case1 => rw [quick_sort]; exact List.sorted_nil
  | case2 pivot rest part ih1 ih2 =>
    have hpart : part = (rest.filter (fun n => decide (n < pivot)),
        rest.filter (not ∘ fun n => decide (n < pivot))) :=
      List.partition_eq_filter_filter _ rest
    have hmem1 : ∀ a ∈ quick_sort part.1, a < pivot := by
      intro a ha
      have : a ∈ part.1 := mem_of_mem_quick_sort ha
      rw [hpart] at this
      simpa using (List.mem_filter.mp this).2
    have hmem2 : ∀ b ∈ quick_sort part.2, pivot ≤ b := by
      intro b hb
      have : b ∈ part.2 := mem_of_mem_quick_sort hb
      rw [hpart] at this
      have := (List.mem_filter.mp this).2
      simp only [Function.comp, Bool.not_eq_true', decide_eq_false_iff_not,
        not_lt] at this
      exact this
    rw [quick_sort]
    rw [List.Sorted] at *
    rw [List.pairwise_append]
    refine ⟨ih1, ?_, ?_⟩
    · rw [List.pairwise_cons]
      exact ⟨hmem2, ih2⟩
    · intro a ha b hb
      rcases List.mem_cons.mp hb with rfl | hb2
      · exact le_of_lt (hmem1 a ha)
      · exact le_of_lt (lt_of_lt_of_le (hmem1 a ha) (hmem2 b hb2))

/-- C4.  For every input list, `quick_sort` returns a list whose multiset
of elements equals the input's (a permutation — nothing added, dropped or
altered) and whose elements are ascending; the empty input yields the
empty result. -/
theorem quick_sort_correct :
    quick_sort ([] : List Int) = [] ∧
    ∀ l : List Int, (quick_sort l).Perm l ∧ (quick_sort l).Sorted (· ≤ ·) := by
  refine ⟨by rw [quick_sort], fun l => ⟨quick_sort_perm l, quick_sort_sorted l⟩⟩

/-! ### `selection_sort` -/

lemma length_swapList (l : List Int) (i j : Nat) :
    (swapList l i j).length = l.length := by
  simp [swapList]

lemma set_getD_self (l : List Int) (i : Nat) (h : i < l.length) :
    l.set i (l.getD i 0) = l := by
  apply List.ext_getElem
  · simp
  · intro n h1 h2
    rcases eq_or_ne i n with rfl | hne
    · rw [List.getElem_set_self, List.getD_eq_getElem l 0 h]
    · rw [List.getElem_set_ne hne]

lemma swapList_same (l : List Int) (i : Nat) (h : i < l.length) :
    swapList l i i = l := by
  rw [swapList, List.set_set]
  exact set_getD_self l i h

/-- Swapping two positions of a list yields a permutation of it. -/
lemma swapList_perm (l : List Int) :
    ∀ i j : Nat, i ≤ j → j < l.length → (swapList l i j).Perm l := by
  induction l with
  | nil => intro i j _ hj; simp at hj
  | cons x xs ih =>
    intro i j hij hj
    match i, j with
    | 0, 0 => rw [swapList_same _ _ hj]
    | 0, j + 1 =>
      have hjx : j < xs.length := by simpa using hj
      have hswap : swapList (x :: xs) 0 (j + 1) =
          xs.getD j 0 :: xs.set j x := by
        simp [swapList]
      rw [hswap]
      have hset : xs.set j x = xs.take j ++ x :: xs.drop (j + 1) :=
        List.set_eq_take_cons_drop x hjx
      have hxs : xs = xs.take j ++ xs.getD j 0 :: xs.drop (j + 1) := by
        conv_lhs => rw [← set_getD_self xs j hjx]
        exact List.set_eq_take_cons_drop _ hjx
      rw [hset]
      conv_rhs => rw [hxs]
      refine (List.perm_middle.cons _).trans ?_
      refine (List.Perm.swap x (xs.getD j 0) _).trans ?_
      exact List.perm_middle.symm.cons x
    | i + 1, j + 1 =>
      have hjx : j < xs.length := by simpa using hj
      have hswap : swapList (x :: xs) (i + 1) (j + 1) =
          x :: swapList xs i j := by
        simp [swapList]
      rw [hswap]
      exact (ih i j (by omega) hjx).cons x

lemma getElem?_swapList_fst (l : List Int) (i j : Nat)
    (hi : i < l.length) (hj : j < l.length) :
    (swapList l i j)[i]? = some (l.getD j 0) := by
  rcases eq_or_ne i j with rfl | hne
  · rw [swapList_same l i hi, List.getElem?_eq_getElem hi,
      List.getD_eq_getElem l 0 hi]
  · rw [swapList, List.getElem?_set_ne (Ne.symm hne),
      List.getElem?_set_self (by simpa using hi)]

lemma take_swapList (l : List Int) (i j k : Nat) (hki : k ≤ i) (hkj : k ≤ j) :
    (swapList l i j).take k = l.take k := by
  rw [swapList, List.set_take, List.set_take,
    List.set_eq_of_length_le (le_trans (List.length_take_le k l) hki),
    List.set_eq_of_length_le (le_trans (List.length_take_le k l) hkj)]

/-- Dropping past the swap target: every element of
`(swapList s k m).drop (k+1)` already occurs in `s.drop k`. -/
lemma mem_drop_of_mem_drop_succ_swapList {b : Int} {s : List Int} {k m : Nat}
    (hk : k < s.length)
    (hb : b ∈ (swapList s k m).drop (k + 1)) : b ∈ s.drop k := by
  have hdk : s.drop k = s[k] :: s.drop (k + 1) := List.drop_eq_getElem_cons hk
  rw [swapList, List.drop_set, List.drop_set] at hb
  rcases Nat.lt_or_ge m (k + 1) with hmlt | hmge
  · rw [if_pos hmlt, if_pos (by omega)] at hb
    rw [hdk]
    exact List.mem_cons_of_mem _ hb
  · rw [if_neg (show ¬ m < k + 1 by omega), if_pos (show k < k + 1 by omega)]
      at hb
    rcases List.mem_or_eq_of_mem_set hb with hb2 | rfl
    · rw [hdk]
      exact List.mem_cons_of_mem _ hb2
    · rw [hdk, List.getD_eq_getElem s 0 hk]
      exact List.mem_cons_self _ _

/-- The inner scan returns either its starting candidate or an index in
`[j, len)`. -/
lemma minFromLoop_bounds (len : Nat) (list : List Int) :
    ∀ j current_min : Nat,
      minFromLoop len list j current_min = current_min ∨
      (j ≤ minFromLoop len list j current_min ∧
        minFromLoop len list j current_min < len) := by
  intro j cm
  induction j, cm using minFromLoop.induct len list with
  | case1 j cm hj ih =>
    rw [minFromLoop, dif_pos hj]
    by_cases hlt : list.getD j 0 < list.getD cm 0
    · rw [if_pos hlt]
      rw [dif_pos hlt] at ih
      rcases ih with h | h
      · rw [h]
        right
        exact ⟨le_refl j, hj⟩
      · right
        omega
    · rw [if_neg hlt]
      rw [dif_neg hlt] at ih
      rcases ih with h | h
      · rw [h]
        left
        rfl
      · right
        omega
  | case2 j cm hj =>
    rw [minFromLoop, dif_neg hj]
    left; rfl

/-- The element at the index the inner scan returns is a lower bound for
the starting candidate's element and every element at indices in
`[j, len)`. -/
lemma minFromLoop_min (len : Nat) (list : List Int) :
    ∀ j current_min : Nat, ∀ t : Nat,
      (t = current_min ∨ (j ≤ t ∧ t < len)) →
      list.getD (minFromLoop len list j current_min) 0 ≤ list.getD t 0 := by
  intro j cm
  induction j, cm using minFromLoop.induct len list with
  | case1 j cm hj ih =>
    intro t ht
    rw [minFromLoop, dif_pos hj]
    by_cases hlt : list.getD j 0 < list.getD cm 0
    · rw [if_pos hlt]
      rw [dif_pos hlt] at ih
      rcases ht with rfl | ⟨hjt, htlen⟩
      · exact le_trans (ih j (Or.inl rfl)) (le_of_lt hlt)
      · exact ih t (by omega)
    · rw [if_neg hlt]
      rw [dif_neg hlt] at ih
      rcases ht with rfl | ⟨hjt, htlen⟩
      · exact ih _ (Or.inl rfl)
      · rcases Nat.eq_or_lt_of_le hjt with heq | hjt'
        · subst heq
          exact le_trans (ih cm (Or.inl rfl)) (not_lt.mp hlt)
        · exact ih t (Or.inr ⟨hjt', htlen⟩)
  | case2 j cm hj =>
    intro t ht
    rw [minFromLoop, dif_neg hj]
    rcases ht with rfl | ⟨hjt, htlen⟩
    · exact le_refl _
    · omega

lemma selSteps_length (len : Nat) (l : List Int) :
    ∀ k : Nat, (selSteps len l k).length = l.length := by
  intro k
  induction k with
  | zero => rfl
  | succ k ih => rw [selSteps, selSortStep, length_swapList, ih]

/-- The spec's selection sort loop invariant: after `k` outer iterations
the state is a permutation of the input, its first `k` positions are
ascending, and every element in the first `k` positions is bounded above
by every element in the remaining positions. -/
lemma selSteps_invariant (l : List Int) :
    ∀ k : Nat, k ≤ l.length →
      (selSteps l.length l k).Perm l ∧
      ((selSteps l.length l k).take k).Sorted (· ≤ ·) ∧
      (∀ a ∈ (selSteps l.length l k).take k,
        ∀ b ∈ (selSteps l.length l k).drop k, a ≤ b) := by
  intro k
  induction k with
  | zero =>
    intro _
    refine ⟨List.Perm.refl l, by simp, by simp⟩
  | succ k ih =>
    intro hk1
    obtain ⟨IH1, IH2, IH3⟩ := ih (by omega)
    have hklen : k < l.length := by omega
    set s := selSteps l.length l k with hs
    have hslen : s.length = l.length := selSteps_length l.length l k
    set m := minFromLoop l.length s (k + 1) k with hm
    have hmbounds : k ≤ m ∧ m < l.length := by
      rcases minFromLoop_bounds l.length s (k + 1) k with h | h
      · rw [← hm] at h
        omega
      · rw [← hm] at h
        omega
    have hmin : ∀ t : Nat, k ≤ t → t < l.length →
        s.getD m 0 ≤ s.getD t 0 := by
      intro t h1 h2
      apply minFromLoop_min
      rcases Nat.eq_or_lt_of_le h1 with rfl | h1'
      · exact Or.inl rfl
      · exact Or.inr ⟨h1', h2⟩
    have hstep : selSteps l.length l (k + 1) = swapList s k m := by
      rw [selSteps, selSortStep]
    have hmins : m < s.length := by omega
    have hks : k < s.length := by omega
    -- the minimum, as a member of the untouched suffix
    have hmem_min : s.getD m 0 ∈ s.drop k := by
      rw [List.mem_iff_getElem]
      refine ⟨m - k, by simp [hslen]; omega, ?_⟩
      rw [List.getElem_drop,
        List.getD_eq_getElem s 0 (show m < s.length by omega)]
      congr 1
      omega
    -- every element of the suffix is bounded below by the minimum
    have hmin_mem : ∀ b ∈ s.drop k, s.getD m 0 ≤ b := by
      intro b hb
      rw [List.mem_iff_getElem] at hb
      obtain ⟨t, htlt, rfl⟩ := hb
      rw [List.getElem_drop]
      rw [← List.getD_eq_getElem s 0]
      apply hmin (k + t) (by omega)
      have := List.length_drop k s ▸ htlt
      omega
    -- the prefix is unchanged by the swap
    have htake : (swapList s k m).take k = s.take k :=
      take_swapList s k m k (le_refl k) hmbounds.1
    -- the new element at position k is the suffix minimum
    have htake1 : (swapList s k m).take (k + 1) =
        s.take k ++ [s.getD m 0] := by
      rw [List.take_succ, htake, getElem?_swapList_fst s k m hks hmins]
      rfl
    refine ⟨?_, ?_, ?_⟩
    · rw [hstep]
      exact (swapList_perm s k m hmbounds.1 hmins).trans IH1
    · rw [hstep, htake1, List.Sorted, List.pairwise_append]
      refine ⟨IH2, List.pairwise_singleton _ _, ?_⟩
      intro a ha b hb
      rw [List.mem_singleton] at hb
      subst hb
      exact IH3 a ha _ hmem_min
    · rw [hstep, htake1]
      intro a ha b hb
      have hb' : b ∈ s.drop k :=
        mem_drop_of_mem_drop_succ_swapList hks hb
      rcases List.mem_append.mp ha with ha' | ha'
      · exact IH3 a ha' b hb'
      · rw [List.mem_singleton] at ha'
        subst ha'
        exact hmin_mem b hb'

/-- Running the outer loop from the start is the same as first taking `k`
explicit steps and continuing the loop at index `k`. -/
lemma selSortLoop_eq_from (l : List Int) :
    ∀ k : Nat, k ≤ l.length →
      selSortLoop l.length l 0 =
        selSortLoop l.length (selSteps l.length l k) k := by
  intro k
  induction k with
  | zero => intro _; rfl
  | succ k ih =>
    intro hk
    rw [ih (by omega)]
    conv_lhs => rw [selSortLoop]
    rw [if_pos (show k < l.length by omega)]
    rfl

lemma selection_sort_eq_selSteps (l : List Int) :
    selection_sort l = selSteps l.length l l.length := by
  rw [selection_sort, selSortLoop_eq_from l l.length (le_refl _),
    selSortLoop, if_neg (lt_irrefl _)]

lemma selection_sort_perm (l : List Int) : (selection_sort l).Perm l := by
  rw [selection_sort_eq_selSteps]
  exact (selSteps_invariant l l.length (le_refl _)).1

lemma selection_sort_sorted (l : List Int) :
    (selection_sort l).Sorted (· ≤ ·) := by
  rw [selection_sort_eq_selSteps]
  have h := (selSteps_invariant l l.length (le_refl _)).2.1
  have htake : (selSteps l.length l l.length).take l.length =
      selSteps l.length l l.length :=
    List.take_of_length_le (le_of_eq (selSteps_length l.length l l.length))
  rwa [htake] at h

/-- C5.  Selection sort's loop invariant and postcondition: after `k`
outer iterations (`k ≤ length`) the state is a permutation of the input
whose first `k` positions are ascending and below every remaining
position — i.e. they hold the `k` smallest elements in ascending order;
on termination (`length` iterations) the resulting list is the input
reordered ascending. -/
theorem selection_sort_invariant_and_sorts (l : List Int) (k : Nat)
    (hk : k ≤ l.length) :
    (selSteps l.length l k).Perm l ∧
    ((selSteps l.length l k).take k).Sorted (· ≤ ·) ∧
    (∀ a ∈ (selSteps l.length l k).take k,
      ∀ b ∈ (selSteps l.length l k).drop k, a ≤ b) ∧
    selection_sort l = selSteps l.length l l.length ∧
    (selection_sort l).Sorted (· ≤ ·) ∧
    (selection_sort l).Perm l := by
  obtain ⟨h1, h2, h3⟩ := selSteps_invariant l k hk
  exact ⟨h1, h2, h3, selection_sort_eq_selSteps l, selection_sort_sorted l,
    selection_sort_perm l⟩

/-- Witness for `selection_sort_invariant_and_sorts` at `l = [3, 1, 2]`,
`k = 2`. -/
theorem selection_sort_invariant_and_sorts_witness :
    (2 ≤ ([3, 1, 2] : List Int).length) ∧
    ((selSteps ([3, 1, 2] : List Int).length [3, 1, 2] 2).Perm [3, 1, 2] ∧
     ((selSteps ([3, 1, 2] : List Int).length [3, 1, 2] 2).take 2).Sorted
        (· ≤ ·) ∧
     (∀ a ∈ (selSteps ([3, 1, 2] : List Int).length [3, 1, 2] 2).take 2,
       ∀ b ∈ (selSteps ([3, 1, 2] : List Int).length [3, 1, 2] 2).drop 2,
         a ≤ b) ∧
     selection_sort [3, 1, 2] =
       selSteps ([3, 1, 2] : List Int).length [3, 1, 2]
         ([3, 1, 2] : List Int).length ∧
     (selection_sort [3, 1, 2]).Sorted (· ≤ ·) ∧
     (selection_sort [3, 1, 2]).Perm [3, 1, 2]) :=
  ⟨by decide, selection_sort_invariant_and_sorts [3, 1, 2] 2 (by decide)⟩

/-- C9.  Sorting an already ascending list is the identity: on sorted
input, `selection_sort` returns its input unchanged and `quick_sort`
returns an equal list. -/
theorem sorting_sorted_is_identity (l : List Int)
    (h : l.Sorted (· ≤ ·)) :
    selection_sort l = l ∧ quick_sort l = l :=
  ⟨List.eq_of_perm_of_sorted (selection_sort_perm l)
      (selection_sort_sorted l) h,
   List.eq_of_perm_of_sorted (quick_sort_perm l) (quick_sort_sorted l) h⟩

/-- Witness for `sorting_sorted_is_identity` at `l = [1, 2, 3]`. -/
theorem sorting_sorted_is_identity_witness :
    ([1, 2, 3] : List Int).Sorted (· ≤ ·) ∧
    (selection_sort [1, 2, 3] = [1, 2, 3] ∧
     quick_sort [1, 2, 3] = [1, 2, 3]) :=
  ⟨by decide, sorting_sorted_is_identity [1, 2, 3] (by decide)⟩

end GrokkingAlgos
